import Mathlib

/-!
Verification of the buyStock repository core: the swing-cycle detector
(`src/analysis/swing_analyzer.py`), the portfolio simulator
(`src/backtesting/runner.py`) and the Sortino metric
(`src/backtesting/metrics.py`), shallowly embedded over exact rationals.
Dates are modelled as bar indices together with a strictly monotone map
from indices to calendar-day numbers.
-/

namespace BuyStock

/-! ## Cycle detector (swing_analyzer.find_swing_cycles) -/

/-- One detected drawdown cycle.  The Python `SwingCycle` dataclass stores
dates and prices; here the `peak_date`/`trough_date`/`recovery_date` fields
are represented by the bar indices they came from, prices are kept verbatim. -/
structure SwingCycle where
  peakIdx : ℕ
  peakPrice : ℚ
  troughIdx : ℕ
  troughPrice : ℚ
  recoveryIdx : Option ℕ
  recoveryPrice : Option ℚ
  deriving DecidableEq, Repr

/-- Python truthiness applied to an `Optional[int]` index: both `None` and
`0` are falsy, mirroring `dates[recovery_idx] ... if recovery_idx else None`. -/
def truthyIdx : Option ℕ → Option ℕ
  | some 0 => none
  | o => o

/-- The linear scan `for j in range(troughIdx, n): if close[j] >= peak_val:
return j`, written with explicit fuel `n - j`. -/
def scanRecovery (close : ℕ → ℚ) (peakVal : ℚ) : ℕ → ℕ → Option ℕ
  | _, 0 => none
  | j, fuel + 1 => if peakVal ≤ close j then some j else scanRecovery close peakVal (j + 1) fuel

/-- Recovery index search over the whole remaining series. -/
def findRecoveryIdx (close : ℕ → ℚ) (n : ℕ) (peakVal : ℚ) (troughIdx : ℕ) : Option ℕ :=
  scanRecovery close peakVal troughIdx (n - troughIdx)

/-- The `SwingCycle(...)` constructor call shared by the three emission
sites, including the Python truthiness on `recovery_idx` for both the
recovery date and the recovery price (`peak_val` is `close[drawdown_start_idx]`). -/
def mkCycle (close : ℕ → ℚ) (n startIdx troughIdx : ℕ) (trough : ℚ) : SwingCycle :=
  ⟨startIdx, close startIdx, troughIdx, trough,
   truthyIdx (findRecoveryIdx close n (close startIdx) troughIdx),
   (truthyIdx (findRecoveryIdx close n (close startIdx) troughIdx)).map close⟩

/-- One emission site: append the cycle when the recorded maximum drawdown
passes the threshold test `max_dd <= -threshold`. -/
def emitCycle (close : ℕ → ℚ) (n : ℕ) (t : ℚ) (startIdx troughIdx : ℕ) (trough : ℚ)
    (cycles : List SwingCycle) : List SwingCycle :=
  if (trough - close startIdx) / close startIdx ≤ -t then
    cycles ++ [mkCycle close n startIdx troughIdx trough]
  else cycles

/-- The detector's loop state: running peak/trough of the open cycle with
their indices, the in-drawdown flag, the recorded drawdown start, and the
cycles emitted so far. -/
structure DetState where
  peak : ℚ
  peakIdx : ℕ
  trough : ℚ
  troughIdx : ℕ
  inDD : Bool
  startIdx : ℕ
  cycles : List SwingCycle
  deriving DecidableEq, Repr

/-- Initial state: running peak = running trough = first close. -/
def detInit (close : ℕ → ℚ) : DetState :=
  ⟨close 0, 0, close 0, 0, false, 0, []⟩

/-- Stage (a)/(b)/(c) of one loop iteration: the new-high check (closing an
open drawdown) and the peak/trough updates. -/
def detStepA (close : ℕ → ℚ) (n : ℕ) (t : ℚ) (i : ℕ) (s : DetState) : DetState :=
  if s.peak < close i then
    { peak := close i, peakIdx := i, trough := close i, troughIdx := i, inDD := false,
      startIdx := s.startIdx,
      cycles := if s.inDD then emitCycle close n t s.startIdx s.troughIdx s.trough s.cycles
                else s.cycles }
  else if close i < s.trough then { s with trough := close i, troughIdx := i }
  else s

/-- Stage (d): enter the in-drawdown state when the current drawdown crosses
the threshold, recording the bar where the running peak was set. -/
def detStepB (close : ℕ → ℚ) (t : ℚ) (i : ℕ) (s : DetState) : DetState :=
  if (close i - s.peak) / s.peak ≤ -t ∧ s.inDD = false then
    { s with inDD := true, startIdx := s.peakIdx }
  else s

/-- Stage (e): the 50%-rebound reset, closing the open drawdown and starting
a fresh cycle at the current bar. -/
def detStepC (close : ℕ → ℚ) (n : ℕ) (t : ℚ) (i : ℕ) (s : DetState) : DetState :=
  if 0 < s.trough ∧ 1 / 2 < (close i - s.trough) / s.trough ∧ s.inDD = true then
    { peak := close i, peakIdx := i, trough := close i, troughIdx := i, inDD := false,
      startIdx := s.startIdx,
      cycles := emitCycle close n t s.startIdx s.troughIdx s.trough s.cycles }
  else s

/-- One full loop iteration of `find_swing_cycles`, in the source's order. -/
def detStep (close : ℕ → ℚ) (n : ℕ) (t : ℚ) (s : DetState) (i : ℕ) : DetState :=
  detStepC close n t i (detStepB close t i (detStepA close n t i s))

/-- The detector state after processing bars `0 .. i-1`. -/
def detStateAt (close : ℕ → ℚ) (n : ℕ) (t : ℚ) : ℕ → DetState
  | 0 => detInit close
  | i + 1 => detStep close n t (detStateAt close n t i) i

/-- The emitted cycle list before the final sort: run all `n` bars, then the
end-of-series emission when still in drawdown; series of length `< 2` give
no cycles. -/
def findSwingCyclesRaw (close : ℕ → ℚ) (n : ℕ) (t : ℚ) : List SwingCycle :=
  if n < 2 then []
  else if (detStateAt close n t n).inDD then
    emitCycle close n t (detStateAt close n t n).startIdx (detStateAt close n t n).troughIdx
      (detStateAt close n t n).trough (detStateAt close n t n).cycles
  else (detStateAt close n t n).cycles

/-- The full detector: emitted cycles sorted (stably) by peak date. -/
def findSwingCycles (close : ℕ → ℚ) (n : ℕ) (t : ℚ) (dates : ℕ → ℤ) : List SwingCycle :=
  List.insertionSort (fun a b => dates a.peakIdx ≤ dates b.peakIdx)
    (findSwingCyclesRaw close n t)

/-- `SwingCycle.drawdown`. -/
def drawdown (c : SwingCycle) : ℚ :=
  (c.troughPrice - c.peakPrice) / c.peakPrice

/-- `SwingCycle.decline_days` under a date assignment. -/
def declineDays (dates : ℕ → ℤ) (c : SwingCycle) : ℤ :=
  dates c.troughIdx - dates c.peakIdx

/-- `SwingCycle.recovery_days` under a date assignment (`None` when the
cycle has no recovery; a `datetime` is always truthy in Python, so the
source's guard is exactly presence of the recovery date). -/
def recoveryDays (dates : ℕ → ℤ) (c : SwingCycle) : Option ℤ :=
  c.recoveryIdx.map (fun j => dates j - dates c.troughIdx)

/-! ## Detector invariants -/

/-- Characterisation of a successful recovery scan: the returned index is
the first one at or after the scan start whose close is at least the peak. -/
theorem scanRecovery_some {close : ℕ → ℚ} {peakVal : ℚ} :
    ∀ {fuel j k : ℕ}, scanRecovery close peakVal j fuel = some k →
      j ≤ k ∧ k < j + fuel ∧ peakVal ≤ close k ∧ ∀ m, j ≤ m → m < k → close m < peakVal := by
  intro fuel
  induction fuel with
  | zero => intro j k h; simp [scanRecovery] at h
  | succ fuel ih =>
    intro j k h
    rw [scanRecovery] at h
    by_cases hc : peakVal ≤ close j
    · rw [if_pos hc] at h
      cases h
      exact ⟨le_rfl, by omega, hc, fun m hm1 hm2 => absurd hm1 (by omega)⟩
    · rw [if_neg hc] at h
      obtain ⟨h1, h2, h3, h4⟩ := ih h
      refine ⟨by omega, by omega, h3, fun m hm1 hm2 => ?_⟩
      rcases eq_or_lt_of_le hm1 with rfl | hlt
      · exact not_le.mp hc
      · exact h4 m (by omega) hm2

/-- The recovery scan succeeds whenever some index in its range satisfies
the recovery condition. -/
theorem scanRecovery_isSome {close : ℕ → ℚ} {peakVal : ℚ} :
    ∀ {fuel j k : ℕ}, j ≤ k → k < j + fuel → peakVal ≤ close k →
      ∃ m, scanRecovery close peakVal j fuel = some m := by
  intro fuel
  induction fuel with
  | zero => intro j k h1 h2 _; omega
  | succ fuel ih =>
    intro j k h1 h2 h3
    rw [scanRecovery]
    by_cases hc : peakVal ≤ close j
    · exact ⟨j, if_pos hc⟩
    · rw [if_neg hc]
      have hk : j + 1 ≤ k := by
        rcases eq_or_lt_of_le h1 with rfl | h
        · exact absurd h3 hc
        · omega
      exact ih hk (by omega) h3

/-- Everything the detector guarantees about an emitted cycle: prices come
from the stored bars, the peak strictly precedes the trough, the recorded
maximum drawdown passed the threshold test, and the recovery fields are the
(truthiness-filtered) result of the recovery scan. -/
structure CycleOK (close : ℕ → ℚ) (n : ℕ) (t : ℚ) (c : SwingCycle) : Prop where
  peak_eq : c.peakPrice = close c.peakIdx
  trough_eq : c.troughPrice = close c.troughIdx
  idx_lt : c.peakIdx < c.troughIdx
  trough_lt_n : c.troughIdx < n
  dd_le : (c.troughPrice - c.peakPrice) / c.peakPrice ≤ -t
  rec_eq : c.recoveryIdx = truthyIdx (findRecoveryIdx close n c.peakPrice c.troughIdx)
  recPrice_eq : c.recoveryPrice = c.recoveryIdx.map close

theorem emitCycle_sub {close : ℕ → ℚ} {n : ℕ} {t : ℚ} {startIdx troughIdx : ℕ} {trough : ℚ}
    {cycles : List SwingCycle} {c : SwingCycle}
    (hc : c ∈ emitCycle close n t startIdx troughIdx trough cycles) :
    c ∈ cycles ∨ (c = mkCycle close n startIdx troughIdx trough ∧
      (trough - close startIdx) / close startIdx ≤ -t) := by
  unfold emitCycle at hc
  by_cases hg : (trough - close startIdx) / close startIdx ≤ -t
  · rw [if_pos hg] at hc
    rcases List.mem_append.mp hc with h | h
    · exact Or.inl h
    · exact Or.inr ⟨List.mem_singleton.mp h, hg⟩
  · rw [if_neg hg] at hc
    exact Or.inl hc

theorem emitCycle_ok {close : ℕ → ℚ} {n : ℕ} {t : ℚ} {startIdx troughIdx : ℕ} {trough : ℚ}
    {cycles : List SwingCycle} (ht : 0 < t) (htr : trough = close troughIdx)
    (hle : startIdx ≤ troughIdx) (hn : troughIdx < n)
    (hok : ∀ c ∈ cycles, CycleOK close n t c) :
    ∀ c ∈ emitCycle close n t startIdx troughIdx trough cycles, CycleOK close n t c := by
  intro c hc
  rcases emitCycle_sub hc with h | ⟨rfl, hg⟩
  · exact hok c h
  · have hne : startIdx ≠ troughIdx := by
      rintro rfl
      rw [htr] at hg
      simp only [sub_self, zero_div] at hg
      exact absurd (neg_nonneg.mp hg) ht.not_le
    exact ⟨rfl, htr, lt_of_le_of_ne hle hne, hn, hg, rfl, rfl⟩

theorem emitCycle_pairwise {close : ℕ → ℚ} {n : ℕ} {t : ℚ} {startIdx troughIdx : ℕ}
    {trough : ℚ} {cycles : List SwingCycle}
    (hch : cycles.Pairwise (fun a b => a.peakIdx < b.peakIdx))
    (hub : ∀ c ∈ cycles, c.peakIdx < startIdx) :
    (emitCycle close n t startIdx troughIdx trough cycles).Pairwise
      (fun a b => a.peakIdx < b.peakIdx) := by
  unfold emitCycle
  by_cases hg : (trough - close startIdx) / close startIdx ≤ -t
  · rw [if_pos hg]
    refine List.pairwise_append.mpr ⟨hch, List.pairwise_singleton _ _, ?_⟩
    intro a ha b hb
    rw [List.mem_singleton.mp hb]
    exact hub a ha
  · rw [if_neg hg]; exact hch

theorem emitCycle_ub {close : ℕ → ℚ} {n : ℕ} {t : ℚ} {startIdx troughIdx : ℕ}
    {trough : ℚ} {cycles : List SwingCycle} {m : ℕ}
    (hub : ∀ c ∈ cycles, c.peakIdx < startIdx) (hlt : startIdx < m) :
    ∀ c ∈ emitCycle close n t startIdx troughIdx trough cycles, c.peakIdx < m := by
  intro c hc
  rcases emitCycle_sub hc with h | ⟨rfl, _⟩
  · exact lt_trans (hub c h) hlt
  · exact hlt

/-- The state invariant maintained across the detector loop: the running
peak/trough are the closes at their stored indices, the peak does not come
after the trough, both lie before the current bar, the drawdown start is
the running-peak bar whenever the detector is in drawdown, and the emitted
cycles are well formed with strictly increasing peak bars all before the
current running peak. -/
structure DInv (close : ℕ → ℚ) (n : ℕ) (t : ℚ) (i : ℕ) (s : DetState) : Prop where
  peak_eq : s.peak = close s.peakIdx
  trough_eq : s.trough = close s.troughIdx
  idx_le : s.peakIdx ≤ s.troughIdx
  idx_lt : s.troughIdx < i
  start_eq : s.inDD = true → s.startIdx = s.peakIdx
  ok : ∀ c ∈ s.cycles, CycleOK close n t c
  chain : s.cycles.Pairwise (fun a b => a.peakIdx < b.peakIdx)
  ub : ∀ c ∈ s.cycles, c.peakIdx < s.peakIdx

theorem dinv_stepA {close : ℕ → ℚ} {n : ℕ} {t : ℚ} {i : ℕ} {s : DetState}
    (ht : 0 < t) (hn : i < n) (h : DInv close n t i s) :
    DInv close n t (i + 1) (detStepA close n t i s) := by
  unfold detStepA
  by_cases h1 : s.peak < close i
  · rw [if_pos h1]
    by_cases hdd : s.inDD = true
    · rw [if_pos hdd]
      have hst := h.start_eq hdd
      have hub : ∀ c ∈ s.cycles, c.peakIdx < s.startIdx := by
        intro c hc; rw [hst]; exact h.ub c hc
      refine ⟨rfl, rfl, le_rfl, Nat.lt_succ_self i, fun hf => absurd hf Bool.false_ne_true,
        ?_, ?_, ?_⟩
      · exact emitCycle_ok ht h.trough_eq (by rw [hst]; exact h.idx_le)
          (lt_trans h.idx_lt hn) h.ok
      · exact emitCycle_pairwise h.chain hub
      · exact emitCycle_ub hub (by rw [hst]; exact lt_of_le_of_lt h.idx_le h.idx_lt)
    · rw [if_neg hdd]
      exact ⟨rfl, rfl, le_rfl, Nat.lt_succ_self i, fun hf => absurd hf Bool.false_ne_true,
        h.ok, h.chain, fun c hc => lt_trans (h.ub c hc) (lt_of_le_of_lt h.idx_le h.idx_lt)⟩
  · rw [if_neg h1]
    by_cases h2 : close i < s.trough
    · rw [if_pos h2]
      exact ⟨h.peak_eq, rfl, le_of_lt (lt_of_le_of_lt h.idx_le h.idx_lt),
        Nat.lt_succ_self i, h.start_eq, h.ok, h.chain, h.ub⟩
    · rw [if_neg h2]
      exact ⟨h.peak_eq, h.trough_eq, h.idx_le, lt_trans h.idx_lt (Nat.lt_succ_self i),
        h.start_eq, h.ok, h.chain, h.ub⟩

theorem dinv_stepB {close : ℕ → ℚ} {n : ℕ} {t : ℚ} {i k : ℕ} {s : DetState}
    (h : DInv close n t k s) : DInv close n t k (detStepB close t i s) := by
  unfold detStepB
  by_cases hc : (close i - s.peak) / s.peak ≤ -t ∧ s.inDD = false
  · rw [if_pos hc]
    exact ⟨h.peak_eq, h.trough_eq, h.idx_le, h.idx_lt, fun _ => rfl, h.ok, h.chain, h.ub⟩
  · rw [if_neg hc]; exact h

theorem dinv_stepC {close : ℕ → ℚ} {n : ℕ} {t : ℚ} {i : ℕ} {s : DetState}
    (ht : 0 < t) (hn : i < n) (h : DInv close n t (i + 1) s) :
    DInv close n t (i + 1) (detStepC close n t i s) := by
  unfold detStepC
  by_cases hc : 0 < s.trough ∧ 1 / 2 < (close i - s.trough) / s.trough ∧ s.inDD = true
  · rw [if_pos hc]
    obtain ⟨-, hreb, hdd⟩ := hc
    have hst := h.start_eq hdd
    have hpk : s.peakIdx < i := by
      by_contra hge
      push_neg at hge
      have htr : s.troughIdx = i := by
        have := h.idx_le
        have := h.idx_lt
        omega
      have h2 : s.trough = close i := by rw [h.trough_eq, htr]
      rw [h2, sub_self, zero_div] at hreb
      exact absurd hreb (by norm_num)
    have hub : ∀ c ∈ s.cycles, c.peakIdx < s.startIdx := by
      intro c hc'; rw [hst]; exact h.ub c hc'
    refine ⟨rfl, rfl, le_rfl, Nat.lt_succ_self i, fun hf => absurd hf Bool.false_ne_true,
      ?_, ?_, ?_⟩
    · exact emitCycle_ok ht h.trough_eq (by rw [hst]; exact h.idx_le)
        (lt_of_le_of_lt (Nat.lt_succ_iff.mp h.idx_lt) hn) h.ok
    · exact emitCycle_pairwise h.chain hub
    · exact emitCycle_ub hub (by rw [hst]; exact hpk)
  · rw [if_neg hc]; exact h

theorem dinv_detStep {close : ℕ → ℚ} {n : ℕ} {t : ℚ} {i : ℕ} {s : DetState}
    (ht : 0 < t) (hn : i < n) (h : DInv close n t i s) :
    DInv close n t (i + 1) (detStep close n t s i) :=
  dinv_stepC ht hn (dinv_stepB (dinv_stepA ht hn h))

theorem detStateAt_zero {close : ℕ → ℚ} {n : ℕ} {t : ℚ} :
    detStateAt close n t 0 = detInit close := rfl

theorem detStateAt_succ {close : ℕ → ℚ} {n : ℕ} {t : ℚ} {i : ℕ} :
    detStateAt close n t (i + 1) = detStep close n t (detStateAt close n t i) i := rfl

theorem detStep_init {close : ℕ → ℚ} {n : ℕ} {t : ℚ} (ht : 0 < t) :
    detStep close n t (detInit close) 0 = detInit close := by
  unfold detStep detStepA detStepB detStepC detInit
  simp [lt_irrefl, sub_self, zero_div, neg_nonneg, ht.not_le]

theorem dinv_detStateAt {close : ℕ → ℚ} {n : ℕ} {t : ℚ} (ht : 0 < t) :
    ∀ i, 1 ≤ i → i ≤ n → DInv close n t i (detStateAt close n t i) := by
  intro i
  induction i with
  | zero => intro h; omega
  | succ i ih =>
    intro _ hle
    rcases Nat.eq_zero_or_pos i with rfl | hpos
    · rw [detStateAt_succ, detStateAt_zero, detStep_init ht]
      exact ⟨rfl, rfl, le_rfl, Nat.one_pos, fun hf => absurd hf Bool.false_ne_true,
        fun c hc => absurd hc (List.not_mem_nil c), List.Pairwise.nil,
        fun c hc => absurd hc (List.not_mem_nil c)⟩
    · rw [detStateAt_succ]
      exact dinv_detStep ht (by omega) (ih hpos (by omega))

/-- Every cycle in the unsorted detector output is well formed, and the
output is already strictly increasing in the peak bar. -/
theorem findSwingCyclesRaw_ok {close : ℕ → ℚ} {n : ℕ} {t : ℚ} (ht : 0 < t) :
    (∀ c ∈ findSwingCyclesRaw close n t, CycleOK close n t c) ∧
      (findSwingCyclesRaw close n t).Pairwise (fun a b => a.peakIdx < b.peakIdx) := by
  unfold findSwingCyclesRaw
  by_cases h2 : n < 2
  · simp [h2]
  · rw [if_neg h2]
    have hinv := @dinv_detStateAt close n t ht n (by omega) le_rfl
    by_cases hdd : (detStateAt close n t n).inDD = true
    · rw [if_pos hdd]
      have hst := hinv.start_eq hdd
      refine ⟨?_, ?_⟩
      · exact emitCycle_ok ht hinv.trough_eq (by rw [hst]; exact hinv.idx_le)
          hinv.idx_lt hinv.ok
      · exact emitCycle_pairwise hinv.chain (fun c hc => by rw [hst]; exact hinv.ub c hc)
    · rw [if_neg hdd]
      exact ⟨hinv.ok, hinv.chain⟩

theorem mem_findSwingCycles {close : ℕ → ℚ} {n : ℕ} {t : ℚ} {dates : ℕ → ℤ} {c : SwingCycle} :
    c ∈ findSwingCycles close n t dates ↔ c ∈ findSwingCyclesRaw close n t :=
  (List.perm_insertionSort _ _).mem_iff

theorem orderedInsert_eq_cons {α : Type} {r : α → α → Prop} [DecidableRel r] {a : α}
    {l : List α} (h : ∀ b ∈ l, r a b) : List.orderedInsert r a l = a :: l := by
  cases l with
  | nil => rfl
  | cons b l => exact if_pos (h b (List.mem_cons_self b l))

theorem insertionSort_eq_of_pairwise {α : Type} {r : α → α → Prop} [DecidableRel r] :
    ∀ {l : List α}, l.Pairwise r → List.insertionSort r l = l := by
  intro l
  induction l with
  | nil => intro _; rfl
  | cons a l ih =>
    intro h
    rw [List.insertionSort, ih (List.pairwise_cons.mp h).2]
    exact orderedInsert_eq_cons (List.pairwise_cons.mp h).1

theorem truthyIdx_eq_some {o : Option ℕ} {j : ℕ} (h : truthyIdx o = some j) : o = some j := by
  match o with
  | none => simp [truthyIdx] at h
  | some 0 => simp [truthyIdx] at h
  | some (k + 1) => simpa [truthyIdx] using h

/-- Unpacking `CycleOK`'s recovery description: a present recovery index is
the first bar at or after the trough whose close reaches the peak price,
and the recovery price is the close of that bar. -/
theorem cycleOK_recovery {close : ℕ → ℚ} {n : ℕ} {t : ℚ} {c : SwingCycle}
    (h : CycleOK close n t c) {j : ℕ} (hj : c.recoveryIdx = some j) :
    c.troughIdx ≤ j ∧ j < n ∧ c.peakPrice ≤ close j ∧
      (∀ k, c.troughIdx ≤ k → k < j → close k < c.peakPrice) ∧
      c.recoveryPrice = some (close j) := by
  have hsc : findRecoveryIdx close n c.peakPrice c.troughIdx = some j :=
    truthyIdx_eq_some (hj ▸ h.rec_eq.symm)
  obtain ⟨h1, h2, h3, h4⟩ := scanRecovery_some hsc
  have hn : c.troughIdx ≤ n := le_of_lt h.trough_lt_n
  refine ⟨h1, by omega, h3, h4, ?_⟩
  rw [h.recPrice_eq, hj]
  rfl

/-- Under the emission guard, a positive peak price forces the trough price
strictly below the peak price. -/
theorem trough_lt_peak {close : ℕ → ℚ} {n : ℕ} {t : ℚ} {c : SwingCycle}
    (h : CycleOK close n t c) (ht : 0 < t) (hp : 0 < c.peakPrice) :
    c.troughPrice < c.peakPrice := by
  have hdd := h.dd_le
  rw [div_le_iff₀ hp] at hdd
  nlinarith [mul_pos ht hp]

/-! ## Claim theorems for the cycle detector -/

/-- Concrete five-bar series from the spec's scenario (closes
`[100, 95, 85, 90, 100]`, days `0..4`). -/
def closes5 : ℕ → ℚ := fun i => [(100 : ℚ), 95, 85, 90, 100].getD i 0

/-- Identity date assignment (bar `i` happens on day `i`). -/
def idDates : ℕ → ℤ := fun i => (i : ℤ)

theorem idDates_mono : StrictMono idDates := fun _ _ h => by
  unfold idDates
  exact_mod_cast h

/-- The single cycle returned on the spec's scenario. -/
def cyc5 : SwingCycle := ⟨0, 100, 2, 85, some 4, some 100⟩

set_option maxRecDepth 4000 in
theorem closes5_eval : findSwingCycles closes5 5 (1 / 10) idDates = [cyc5] := by
  norm_num [findSwingCycles, findSwingCyclesRaw, detStateAt, detStep, detStepA, detStepB,
    detStepC, detInit, closes5, idDates, emitCycle, mkCycle, findRecoveryIdx, scanRecovery,
    truthyIdx, cyc5, List.insertionSort, List.orderedInsert]

theorem cyc5_mem : cyc5 ∈ findSwingCycles closes5 5 (1 / 10) idDates := by
  rw [closes5_eval]
  exact List.mem_singleton.mpr rfl

/-- Claim C3: every emitted `SwingCycle` satisfies
`drawdown = (trough_price - peak_price) / peak_price ≤ -threshold`,
`peak_date ≤ trough_date` and, when a recovery is present,
`trough_date ≤ recovery_date`. -/
theorem C3_cycle_invariants {close : ℕ → ℚ} {n : ℕ} {t : ℚ} {dates : ℕ → ℤ}
    (ht : 0 < t) (ht1 : t < 1) (hmono : StrictMono dates) :
    ∀ c ∈ findSwingCycles close n t dates,
      drawdown c ≤ -t ∧ dates c.peakIdx ≤ dates c.troughIdx ∧
        ∀ j, c.recoveryIdx = some j → dates c.troughIdx ≤ dates j := by
  intro c hc
  have hok := (findSwingCyclesRaw_ok ht).1 c (mem_findSwingCycles.mp hc)
  refine ⟨hok.dd_le, le_of_lt (hmono hok.idx_lt), fun j hj => ?_⟩
  exact hmono.monotone (cycleOK_recovery hok hj).1

/-- Witness for C3 on the spec's concrete scenario. -/
theorem C3_cycle_invariants_witness :
    drawdown cyc5 ≤ -(1 / 10 : ℚ) ∧ idDates cyc5.peakIdx ≤ idDates cyc5.troughIdx ∧
      idDates cyc5.troughIdx ≤ idDates 4 := by
  have h := @C3_cycle_invariants closes5 5 (1 / 10) idDates
    (by norm_num) (by norm_num) idDates_mono cyc5 cyc5_mem
  exact ⟨h.1, h.2.1, h.2.2 4 rfl⟩

/-- Claim C4: when an emitted cycle has a recovery, the recovery index is
the first bar at or after the trough, in the whole input series, whose
close is at least the peak price, and the recovery price is that close. -/
theorem C4_recovery_first {close : ℕ → ℚ} {n : ℕ} {t : ℚ} {dates : ℕ → ℤ} (ht : 0 < t) :
    ∀ c ∈ findSwingCycles close n t dates, ∀ j, c.recoveryIdx = some j →
      c.troughIdx ≤ j ∧ j < n ∧ c.peakPrice ≤ close j ∧
        (∀ k, c.troughIdx ≤ k → k < j → close k < c.peakPrice) ∧
        c.recoveryPrice = some (close j) := by
  intro c hc j hj
  exact cycleOK_recovery ((findSwingCyclesRaw_ok ht).1 c (mem_findSwingCycles.mp hc)) hj

/-- Witness for C4 on the spec's concrete scenario. -/
theorem C4_recovery_first_witness :
    cyc5.troughIdx ≤ 4 ∧ 4 < 5 ∧ cyc5.peakPrice ≤ closes5 4 ∧
      closes5 3 < cyc5.peakPrice ∧ cyc5.recoveryPrice = some (closes5 4) := by
  have h := @C4_recovery_first closes5 5 (1 / 10) idDates
    (by norm_num) cyc5 cyc5_mem 4 rfl
  exact ⟨h.1, h.2.1, h.2.2.1, h.2.2.2.1 3 (by norm_num [cyc5]) (by norm_num), h.2.2.2.2⟩

/-- Claim C5: on closes `[100, 95, 85, 90, 100]` with threshold `0.10` the
detector returns exactly one cycle — peak `100` at day 0, trough `85` at
day 2, recovery `100` at day 4 — with drawdown `-0.15`, two decline days
and two recovery days. -/
theorem C5_concrete_scenario :
    findSwingCycles closes5 5 (1 / 10) idDates = [cyc5] ∧
      drawdown cyc5 = -(3 / 20) ∧ declineDays idDates cyc5 = 2 ∧
      recoveryDays idDates cyc5 = some 2 := by
  refine ⟨closes5_eval, by norm_num [drawdown, cyc5], by decide, by decide⟩

theorem detStepB_self {close : ℕ → ℚ} {t : ℚ} {i : ℕ} {s : DetState}
    (ht : 0 < t) (hpk : s.peak = close i) : detStepB close t i s = s := by
  unfold detStepB
  rw [if_neg]
  rintro ⟨h1, -⟩
  rw [hpk, sub_self, zero_div] at h1
  exact absurd (neg_nonneg.mp h1) ht.not_le

theorem detStepC_of_not_inDD {close : ℕ → ℚ} {n : ℕ} {t : ℚ} {i : ℕ} {s : DetState}
    (hdd : s.inDD = false) : detStepC close n t i s = s := by
  unfold detStepC
  rw [if_neg]
  rintro ⟨-, -, h3⟩
  rw [hdd] at h3
  exact absurd h3 (by decide)

/-- When the new-high branch fires on an open drawdown and the threshold
guard passes, the step appends exactly the cycle built from the recorded
drawdown start and running trough, and resets the state to the current bar. -/
theorem detStep_newHigh {close : ℕ → ℚ} {n : ℕ} {t : ℚ} {i : ℕ} {s : DetState}
    (ht : 0 < t) (hdd : s.inDD = true) (hhigh : s.peak < close i)
    (hguard : (s.trough - close s.startIdx) / close s.startIdx ≤ -t) :
    detStep close n t s i =
      ⟨close i, i, close i, i, false, s.startIdx,
        s.cycles ++ [mkCycle close n s.startIdx s.troughIdx s.trough]⟩ := by
  have hA : detStepA close n t i s =
      ⟨close i, i, close i, i, false, s.startIdx,
        s.cycles ++ [mkCycle close n s.startIdx s.troughIdx s.trough]⟩ := by
    unfold detStepA emitCycle
    rw [if_pos hhigh, if_pos hdd, if_pos hguard]
  unfold detStep
  rw [hA, detStepB_self ht rfl, detStepC_of_not_inDD rfl]

/-- Claim C6: a cycle emitted by the new-high closing rule (current close
strictly above the running peak while in drawdown, threshold guard passing)
always has a recovery date: the scan for the first bar at or after the
trough with close at least the starting peak cannot fail there, so the
`None` fallback of that emission site is unreachable. -/
theorem C6_newHigh_recovery {close : ℕ → ℚ} {n : ℕ} {t : ℚ} {i : ℕ}
    (ht : 0 < t) (hn : i < n)
    (hdd : (detStateAt close n t i).inDD = true)
    (hhigh : (detStateAt close n t i).peak < close i)
    (hguard : ((detStateAt close n t i).trough - close (detStateAt close n t i).startIdx) /
        close (detStateAt close n t i).startIdx ≤ -t) :
    (detStep close n t (detStateAt close n t i) i).cycles =
      (detStateAt close n t i).cycles ++
        [mkCycle close n (detStateAt close n t i).startIdx (detStateAt close n t i).troughIdx
          (detStateAt close n t i).trough] ∧
      (mkCycle close n (detStateAt close n t i).startIdx (detStateAt close n t i).troughIdx
        (detStateAt close n t i).trough).recoveryIdx ≠ none := by
  rcases Nat.eq_zero_or_pos i with rfl | hpos
  · rw [detStateAt_zero] at hdd
    exact absurd hdd (by simp [detInit])
  · have hinv := @dinv_detStateAt close n t ht i hpos (le_of_lt hn)
    set s := detStateAt close n t i with hs
    refine ⟨by rw [detStep_newHigh ht hdd hhigh hguard], ?_⟩
    have hst := hinv.start_eq hdd
    have hpeakval : close s.startIdx = s.peak := by rw [hst, ← hinv.peak_eq]
    have hle : s.startIdx ≤ s.troughIdx := by rw [hst]; exact hinv.idx_le
    have hstj : s.startIdx < s.troughIdx := by
      rcases eq_or_lt_of_le hle with heq | h
      · exfalso
        have heq2 : close s.startIdx = s.trough := by rw [heq, ← hinv.trough_eq]
        rw [heq2, sub_self, zero_div] at hguard
        exact absurd (neg_nonneg.mp hguard) ht.not_le
      · exact h
    obtain ⟨m, hm⟩ := @scanRecovery_isSome close (close s.startIdx)
      (n - s.troughIdx) s.troughIdx i
      (le_of_lt hinv.idx_lt) (by have := hinv.idx_lt; omega)
      (by rw [hpeakval]; exact le_of_lt hhigh)
    have hm1 := (scanRecovery_some hm).1
    show (mkCycle close n s.startIdx s.troughIdx s.trough).recoveryIdx ≠ none
    unfold mkCycle findRecoveryIdx
    dsimp only
    rw [hm]
    cases m with
    | zero => omega
    | succ k => simp [truthyIdx]

/-- Three-bar series exercising the new-high emission branch. -/
def closes3 : ℕ → ℚ := fun i => [(100 : ℚ), 85, 101].getD i 0

theorem closes3_state_eval :
    detStateAt closes3 3 (1 / 10) 2 = ⟨100, 0, 85, 1, true, 0, []⟩ := by
  norm_num [detStateAt, detStep, detStepA, detStepB, detStepC, detInit, closes3,
    emitCycle, mkCycle, findRecoveryIdx, scanRecovery, truthyIdx]

/-- Witness for C6: on closes `[100, 85, 101]` the new-high branch fires at
bar 2 and the emitted cycle carries a recovery. -/
theorem C6_newHigh_recovery_witness :
    (detStep closes3 3 (1 / 10) (detStateAt closes3 3 (1 / 10) 2) 2).cycles =
      (detStateAt closes3 3 (1 / 10) 2).cycles ++
        [mkCycle closes3 3 (detStateAt closes3 3 (1 / 10) 2).startIdx
          (detStateAt closes3 3 (1 / 10) 2).troughIdx (detStateAt closes3 3 (1 / 10) 2).trough] ∧
      (mkCycle closes3 3 (detStateAt closes3 3 (1 / 10) 2).startIdx
        (detStateAt closes3 3 (1 / 10) 2).troughIdx
        (detStateAt closes3 3 (1 / 10) 2).trough).recoveryIdx ≠ none := by
  exact C6_newHigh_recovery (by norm_num) (by norm_num)
    (by rw [closes3_state_eval])
    (by rw [closes3_state_eval]; norm_num [closes3])
    (by rw [closes3_state_eval]; norm_num [closes3])

/-- Claim C10: the detector appends cycles already in strictly increasing
peak-date order, so the final sort by peak date leaves the list unchanged
and the returned cycles have pairwise distinct peak dates. -/
theorem C10_emission_order {close : ℕ → ℚ} {n : ℕ} {t : ℚ} {dates : ℕ → ℤ}
    (ht : 0 < t) (ht1 : t < 1) (hmono : StrictMono dates) :
    (findSwingCyclesRaw close n t).Pairwise (fun a b => dates a.peakIdx < dates b.peakIdx) ∧
      findSwingCycles close n t dates = findSwingCyclesRaw close n t ∧
      (findSwingCycles close n t dates).Pairwise
        (fun a b => dates a.peakIdx ≠ dates b.peakIdx) := by
  have h1 : (findSwingCyclesRaw close n t).Pairwise
      (fun a b => dates a.peakIdx < dates b.peakIdx) :=
    (findSwingCyclesRaw_ok ht).2.imp (fun h => hmono h)
  have h2 : findSwingCycles close n t dates = findSwingCyclesRaw close n t :=
    insertionSort_eq_of_pairwise (h1.imp (fun h => le_of_lt h))
  refine ⟨h1, h2, ?_⟩
  rw [h2]
  exact h1.imp (fun h => ne_of_lt h)

/-- Witness for C10 on the spec's concrete scenario. -/
theorem C10_emission_order_witness :
    (findSwingCyclesRaw closes5 5 (1 / 10)).Pairwise
        (fun a b => idDates a.peakIdx < idDates b.peakIdx) ∧
      findSwingCycles closes5 5 (1 / 10) idDates = findSwingCyclesRaw closes5 5 (1 / 10) ∧
      (findSwingCycles closes5 5 (1 / 10) idDates).Pairwise
        (fun a b => idDates a.peakIdx ≠ idDates b.peakIdx) :=
  C10_emission_order (by norm_num) (by norm_num) idDates_mono

/-! ## Recovery-day statistics (swing_analyzer.analyze_statistics) -/

/-- Python truthiness on `Optional[int]`: both `None` and `0` are falsy.
This is the filter used by `[c.recovery_days for c in cycles if c.recovery_days]`. -/
def truthyInt (o : Option ℤ) : Option ℤ :=
  match o with
  | none => none
  | some d => if d = 0 then none else some d

/-- `np.mean` over a list of day counts. -/
def listMeanZ (l : List ℤ) : ℚ :=
  (l.sum : ℚ) / (l.length : ℚ)

/-- `np.median` over a list of day counts: middle element of the sorted
list, or the average of the two middle elements for even length. -/
def listMedianZ (l : List ℤ) : ℚ :=
  if l.length % 2 = 1 then
    (((List.insertionSort (fun a b : ℤ => a ≤ b) l).getD (l.length / 2) 0 : ℤ) : ℚ)
  else
    ((((List.insertionSort (fun a b : ℤ => a ≤ b) l).getD (l.length / 2 - 1) 0 +
        (List.insertionSort (fun a b : ℤ => a ≤ b) l).getD (l.length / 2) 0 : ℤ) : ℚ)) / 2

/-- `np.min` over a nonempty list of day counts. -/
def listMinZ (l : List ℤ) : ℤ := l.min?.getD 0

/-- `np.max` over a nonempty list of day counts. -/
def listMaxZ (l : List ℤ) : ℤ := l.max?.getD 0

/-- The `recovery_days` entry of the statistics dictionary: each field is
the statistic of the collected data when the list is truthy (nonempty),
else `None`. -/
structure OptStats where
  mean : Option ℚ
  median : Option ℚ
  minv : Option ℤ
  maxv : Option ℤ
  deriving DecidableEq, Repr

def optStatsOf (l : List ℤ) : OptStats :=
  if l.isEmpty then ⟨none, none, none, none⟩
  else ⟨some (listMeanZ l), some (listMedianZ l), some (listMinZ l), some (listMaxZ l)⟩

/-- `recovery_days = [c.recovery_days for c in cycles if c.recovery_days]`. -/
def recoveryDaysData (dates : ℕ → ℤ) (cycles : List SwingCycle) : List ℤ :=
  cycles.filterMap (fun c => truthyInt (recoveryDays dates c))

/-- The recovery-day statistics computed by `analyze_statistics`. -/
def recoveryDaysStats (dates : ℕ → ℤ) (cycles : List SwingCycle) : OptStats :=
  optStatsOf (recoveryDaysData dates cycles)

/-- Claim C9: the recovery-day statistics are computed over exactly the
cycles whose recovery date is present — the truthiness filter coincides
with the presence filter because every completed cycle of the detector has
`recovery_days ≥ 1` — and cycles without a recovery are excluded rather
than counted as zero. -/
theorem C9_recovery_stats {close : ℕ → ℚ} {n : ℕ} {t : ℚ} {dates : ℕ → ℤ}
    (ht : 0 < t) (hmono : StrictMono dates) (hpos : ∀ i < n, 0 < close i) :
    recoveryDaysData dates (findSwingCycles close n t dates) =
        (findSwingCycles close n t dates).filterMap (recoveryDays dates) ∧
      (∀ d ∈ (findSwingCycles close n t dates).filterMap (recoveryDays dates), 1 ≤ d) ∧
      recoveryDaysStats dates (findSwingCycles close n t dates) =
        optStatsOf ((findSwingCycles close n t dates).filterMap (recoveryDays dates)) := by
  have key : ∀ c ∈ findSwingCycles close n t dates, ∀ d,
      recoveryDays dates c = some d → 1 ≤ d := by
    intro c hc d hd
    have hok := (findSwingCyclesRaw_ok ht).1 c (mem_findSwingCycles.mp hc)
    rcases hrec : c.recoveryIdx with - | j
    · simp [recoveryDays, hrec] at hd
    · simp [recoveryDays, hrec] at hd
      obtain ⟨hle, hjn, hclose, hmin, -⟩ := cycleOK_recovery hok hrec
      have htj : c.troughIdx < j := by
        rcases eq_or_lt_of_le hle with heq | h
        · exfalso
          have hp : 0 < c.peakPrice := by
            rw [hok.peak_eq]
            exact hpos c.peakIdx (lt_trans hok.idx_lt hok.trough_lt_n)
          have hlt : c.troughPrice < c.peakPrice := trough_lt_peak hok ht hp
          rw [hok.trough_eq, heq] at hlt
          exact absurd hclose (not_le.mpr hlt)
        · exact h
      have := hmono htj
      omega
  have h1 : recoveryDaysData dates (findSwingCycles close n t dates) =
      (findSwingCycles close n t dates).filterMap (recoveryDays dates) := by
    apply List.filterMap_congr
    intro c hc
    rcases hrd : recoveryDays dates c with - | d
    · rfl
    · have hd1 := key c hc d hrd
      have hd0 : d ≠ 0 := by omega
      simp [truthyInt, hd0]
  refine ⟨h1, ?_, ?_⟩
  · intro d hd
    obtain ⟨c, hc, heq⟩ := List.mem_filterMap.mp hd
    exact key c hc d heq
  · unfold recoveryDaysStats
    rw [h1]

/-- Witness for C9 on the spec's concrete scenario. -/
theorem C9_recovery_stats_witness :
    recoveryDaysData idDates (findSwingCycles closes5 5 (1 / 10) idDates) =
        (findSwingCycles closes5 5 (1 / 10) idDates).filterMap (recoveryDays idDates) ∧
      (1 : ℤ) ≤ 2 ∧
      recoveryDaysStats idDates (findSwingCycles closes5 5 (1 / 10) idDates) =
        optStatsOf ((findSwingCycles closes5 5 (1 / 10) idDates).filterMap
          (recoveryDays idDates)) := by
  have h := @C9_recovery_stats closes5 5 (1 / 10) idDates
    (by norm_num) idDates_mono (by intro i hi; interval_cases i <;> norm_num [closes5])
  refine ⟨h.1, ?_, h.2.2⟩
  refine h.2.1 2 ?_
  rw [closes5_eval]
  decide

/-! ## Portfolio simulator (runner._simulate_trading) -/

/-- The per-bar trading signal (`df['Signal']` values). -/
inductive Signal where
  | strongBuy
  | buy
  | hold
  | sell
  | strongSell
  deriving DecidableEq, Repr

/-- The mutable loop state: position fraction, cash and entry price. -/
structure SimState where
  position : ℚ
  cash : ℚ
  entry : ℚ
  deriving DecidableEq, Repr

/-- One recorded row of the backtest frame: Position, Cash, Holdings,
Portfolio, Trade (1 = buy, -1 = sell, 0 = none) and Trade_Return. -/
structure SimRow where
  position : ℚ
  cash : ℚ
  holdings : ℚ
  portfolio : ℚ
  trade : ℤ
  tradeReturn : ℚ
  deriving DecidableEq, Repr

/-- The membership test `signal in ['STRONG_BUY', 'BUY']`. -/
def isBuySig : Signal → Bool
  | Signal.strongBuy => true
  | Signal.buy => true
  | _ => false

/-- The membership test `signal in ['STRONG_SELL', 'SELL']`. -/
def isSellSig : Signal → Bool
  | Signal.strongSell => true
  | Signal.sell => true
  | _ => false

/-- Buy target: full position on STRONG_BUY, else `min(position + 0.5, 1.0)`. -/
def buyTarget (sig : Signal) (p : ℚ) : ℚ :=
  match sig with
  | Signal.strongBuy => 1
  | _ => min (p + 1 / 2) 1

/-- Sell ratio: everything on STRONG_SELL, else half. -/
def sellRatio (sig : Signal) : ℚ :=
  match sig with
  | Signal.strongSell => 1
  | _ => 1 / 2

/-- The state transition of one loop iteration, returning the new state,
the trade flag and the trade return, mirroring the source's branch
structure exactly (buy gated by `buy_amount > 0` and `cost <= cash`; sell
gated by `sell_position > 0`; entry reset when the position reaches zero). -/
def simStepCore (cap comm slip : ℚ) (st : SimState) (sig : Signal) (price : ℚ) :
    SimState × ℤ × ℚ :=
  if isBuySig sig = true ∧ st.position < 1 then
    if 0 < (buyTarget sig st.position - st.position) * st.cash then
      if (buyTarget sig st.position - st.position) * st.cash * (1 + comm) ≤ st.cash then
        (⟨buyTarget sig st.position,
          st.cash - (buyTarget sig st.position - st.position) * st.cash * (1 + comm),
          price * (1 + slip)⟩, 1, 0)
      else (st, 0, 0)
    else (st, 0, 0)
  else if isSellSig sig = true ∧ 0 < st.position then
    if 0 < st.position * sellRatio sig then
      (⟨st.position * (1 - sellRatio sig),
        st.cash + st.position * sellRatio sig * cap *
          (if 0 < st.entry then price * (1 - slip) / st.entry else 1) * (1 - comm),
        if st.position * (1 - sellRatio sig) = 0 then 0 else st.entry⟩,
       -1, if 0 < st.entry then (price * (1 - slip) - st.entry) / st.entry else 0)
    else (st, 0, 0)
  else (st, 0, 0)

/-- One full bar: state transition plus the recorded row, whose holdings
are `position * initial_capital * (price / close0)` for the just-updated
position, and whose portfolio is `cash + holdings`. -/
def simStep (cap comm slip close0 : ℚ) (st : SimState) (sig : Signal) (price : ℚ) :
    SimState × SimRow :=
  ((simStepCore cap comm slip st sig price).1,
   ⟨(simStepCore cap comm slip st sig price).1.position,
    (simStepCore cap comm slip st sig price).1.cash,
    (simStepCore cap comm slip st sig price).1.position * cap * (price / close0),
    (simStepCore cap comm slip st sig price).1.cash +
      (simStepCore cap comm slip st sig price).1.position * cap * (price / close0),
    (simStepCore cap comm slip st sig price).2.1,
    (simStepCore cap comm slip st sig price).2.2⟩)

def simRunAux (cap comm slip close0 : ℚ) : SimState → List (Signal × ℚ) → List SimRow
  | _, [] => []
  | st, (sig, price) :: rest =>
      (simStep cap comm slip close0 st sig price).2 ::
        simRunAux cap comm slip close0 (simStep cap comm slip close0 st sig price).1 rest

/-- The whole simulation: start with zero position, full cash and zero
entry price; the valuation anchor is the first bar's close. -/
def simRun (cap comm slip : ℚ) (bars : List (Signal × ℚ)) : List SimRow :=
  match bars with
  | [] => []
  | (_, p0) :: _ => simRunAux cap comm slip p0 ⟨0, cap, 0⟩ bars

/-! ## Claim theorems for the simulator -/

/-- Claim C1: on every executed sell the cash credited is
`sell_position * initial_capital * (actual_price / entry_price if
entry_price > 0 else 1) * (1 - commission)` with
`actual_price = price * (1 - slippage)`, anchored to the entry price; and
on every bar, whatever the branch, the recorded holdings are
`position * initial_capital * (price / close0)` — anchored to the first
close, independent of the entry price — with `portfolio = cash + holdings`. -/
theorem C1_sell_valuation (cap comm slip close0 : ℚ) (st : SimState) (sig : Signal)
    (price : ℚ) :
    ((simStep cap comm slip close0 st sig price).2.trade = -1 →
      (simStep cap comm slip close0 st sig price).2.cash =
        st.cash + st.position * sellRatio sig * cap *
          (if 0 < st.entry then price * (1 - slip) / st.entry else 1) * (1 - comm)) ∧
    (simStep cap comm slip close0 st sig price).2.holdings =
      (simStep cap comm slip close0 st sig price).2.position * cap * (price / close0) ∧
    (simStep cap comm slip close0 st sig price).2.portfolio =
      (simStep cap comm slip close0 st sig price).2.cash +
        (simStep cap comm slip close0 st sig price).2.holdings := by
  refine ⟨?_, rfl, rfl⟩
  intro htr
  unfold simStep simStepCore at htr ⊢
  by_cases h1 : isBuySig sig = true ∧ st.position < 1
  · rw [if_pos h1] at htr ⊢
    by_cases h2 : 0 < (buyTarget sig st.position - st.position) * st.cash
    · rw [if_pos h2] at htr ⊢
      by_cases h3 : (buyTarget sig st.position - st.position) * st.cash * (1 + comm) ≤ st.cash
      · rw [if_pos h3] at htr; simp at htr
      · rw [if_neg h3] at htr; simp at htr
    · rw [if_neg h2] at htr; simp at htr
  · rw [if_neg h1] at htr ⊢
    by_cases h4 : isSellSig sig = true ∧ 0 < st.position
    · rw [if_pos h4] at htr ⊢
      by_cases h5 : 0 < st.position * sellRatio sig
      · rw [if_pos h5]
      · rw [if_neg h5] at htr; simp at htr
    · rw [if_neg h4] at htr; simp at htr

/-- Witness for C1: a full sell at unchanged price credits the full
initial capital. -/
theorem C1_sell_valuation_witness :
    (simStep 100000 0 0 100 ⟨1, 0, 100⟩ Signal.strongSell 100).2.cash =
        (0 : ℚ) + 1 * sellRatio Signal.strongSell * 100000 *
          (if (0 : ℚ) < 100 then (100 : ℚ) * (1 - 0) / 100 else 1) * (1 - 0) ∧
      (simStep 100000 0 0 100 ⟨1, 0, 100⟩ Signal.strongSell 100).2.holdings =
        (simStep 100000 0 0 100 ⟨1, 0, 100⟩ Signal.strongSell 100).2.position * 100000 *
          ((100 : ℚ) / 100) ∧
      (simStep 100000 0 0 100 ⟨1, 0, 100⟩ Signal.strongSell 100).2.portfolio =
        (simStep 100000 0 0 100 ⟨1, 0, 100⟩ Signal.strongSell 100).2.cash +
          (simStep 100000 0 0 100 ⟨1, 0, 100⟩ Signal.strongSell 100).2.holdings := by
  have h := C1_sell_valuation 100000 0 0 100 ⟨1, 0, 100⟩ Signal.strongSell 100
  exact ⟨h.1 (by norm_num [simStep, simStepCore, sellRatio, isBuySig, isSellSig]),
    h.2.1, h.2.2⟩

/-- The per-run invariant giving nonnegative cash: cash and position never
go negative, and with a commission rate above `1` no buy can ever execute,
so the position stays zero. -/
def SimOk (comm : ℚ) (st : SimState) : Prop :=
  0 ≤ st.cash ∧ 0 ≤ st.position ∧ (1 < comm → st.position = 0)

theorem buyTarget_ge_half (sig : Signal) {p : ℚ} (hp : 0 ≤ p) : 1 / 2 ≤ buyTarget sig p := by
  have hmin : 1 / 2 ≤ min (p + 1 / 2) 1 := le_min (by linarith) (by norm_num)
  cases sig <;> simp only [buyTarget] <;> first | exact hmin | norm_num

theorem buyTarget_nonneg (sig : Signal) {p : ℚ} (hp : 0 ≤ p) : 0 ≤ buyTarget sig p :=
  le_trans (by norm_num) (buyTarget_ge_half sig hp)

theorem sellRatio_le_one (sig : Signal) : sellRatio sig ≤ 1 := by
  cases sig <;> norm_num [sellRatio]

theorem simStepCore_ok {cap comm slip : ℚ} {st : SimState} {sig : Signal} {price : ℚ}
    (hcap : 0 < cap) (hcomm : 0 ≤ comm) (hslip1 : slip ≤ 1) (hprice : 0 < price)
    (h : SimOk comm st) : SimOk comm (simStepCore cap comm slip st sig price).1 := by
  obtain ⟨hc, hp, hcm⟩ := h
  unfold simStepCore
  by_cases h1 : isBuySig sig = true ∧ st.position < 1
  · rw [if_pos h1]
    by_cases h2 : 0 < (buyTarget sig st.position - st.position) * st.cash
    · rw [if_pos h2]
      by_cases h3 : (buyTarget sig st.position - st.position) * st.cash * (1 + comm) ≤ st.cash
      · rw [if_pos h3]
        refine ⟨by dsimp only; linarith, by dsimp only; exact buyTarget_nonneg sig hp, ?_⟩
        intro hcm1
        exfalso
        have hp0 : st.position = 0 := hcm hcm1
        have htg := buyTarget_ge_half sig hp
        rw [hp0, sub_zero] at h2 h3
        rw [hp0] at htg
        have hcash : 0 < st.cash := by nlinarith [htg]
        nlinarith [mul_pos h2 (sub_pos.mpr hcm1),
          mul_nonneg (sub_nonneg.mpr htg) (le_of_lt hcash), h3]
      · rw [if_neg h3]; exact ⟨hc, hp, hcm⟩
    · rw [if_neg h2]; exact ⟨hc, hp, hcm⟩
  · rw [if_neg h1]
    by_cases h4 : isSellSig sig = true ∧ 0 < st.position
    · rw [if_pos h4]
      by_cases h5 : 0 < st.position * sellRatio sig
      · rw [if_pos h5]
        have hcomm1 : comm ≤ 1 := by
          by_contra hgt
          push_neg at hgt
          rw [hcm hgt] at h4
          exact absurd h4.2 (lt_irrefl 0)
        have hratio : 0 ≤ (if 0 < st.entry then price * (1 - slip) / st.entry else 1) := by
          split_ifs with he
          · exact div_nonneg (mul_nonneg (le_of_lt hprice) (by linarith)) (le_of_lt he)
          · norm_num
        refine ⟨?_, ?_, ?_⟩
        · dsimp only
          have hsv : 0 ≤ st.position * sellRatio sig * cap *
              (if 0 < st.entry then price * (1 - slip) / st.entry else 1) * (1 - comm) :=
            mul_nonneg (mul_nonneg (mul_nonneg (le_of_lt h5) (le_of_lt hcap)) hratio)
              (by linarith)
          linarith
        · dsimp only
          exact mul_nonneg hp (by linarith [sellRatio_le_one sig])
        · intro hgt; exact absurd hcomm1 (not_le.mpr hgt)
      · rw [if_neg h5]; exact ⟨hc, hp, hcm⟩
    · rw [if_neg h4]; exact ⟨hc, hp, hcm⟩

theorem simRunAux_cash {cap comm slip close0 : ℚ} (hcap : 0 < cap) (hcomm : 0 ≤ comm)
    (hslip1 : slip ≤ 1) :
    ∀ (bars : List (Signal × ℚ)) (st : SimState), SimOk comm st →
      (∀ b ∈ bars, 0 < b.2) →
      ∀ row ∈ simRunAux cap comm slip close0 st bars, 0 ≤ row.cash := by
  intro bars
  induction bars with
  | nil => intro st _ _ row hrow; simp [simRunAux] at hrow
  | cons b rest ih =>
    obtain ⟨sig, price⟩ := b
    intro st h hpb row hrow
    have hpr : 0 < price := hpb (sig, price) (List.mem_cons_self _ _)
    have hok := @simStepCore_ok cap comm slip st sig price hcap hcomm hslip1 hpr h
    rw [simRunAux] at hrow
    rcases List.mem_cons.mp hrow with hrf | hmem
    · rw [hrf]
      exact hok.1
    · exact ih _ hok (fun b hb => hpb b (List.mem_cons_of_mem _ hb)) row hmem

/-- A trade flag of `1` is only recorded when the branch's cash gate
`cost ≤ cash` held. -/
theorem simStep_buy_gate {cap comm slip close0 : ℚ} {st : SimState} {sig : Signal} {price : ℚ}
    (htr : (simStep cap comm slip close0 st sig price).2.trade = 1) :
    (buyTarget sig st.position - st.position) * st.cash * (1 + comm) ≤ st.cash := by
  unfold simStep simStepCore at htr
  by_cases h1 : isBuySig sig = true ∧ st.position < 1
  · rw [if_pos h1] at htr
    by_cases h2 : 0 < (buyTarget sig st.position - st.position) * st.cash
    · rw [if_pos h2] at htr
      by_cases h3 : (buyTarget sig st.position - st.position) * st.cash * (1 + comm) ≤ st.cash
      · exact h3
      · rw [if_neg h3] at htr; simp at htr
    · rw [if_neg h2] at htr; simp at htr
  · rw [if_neg h1] at htr
    by_cases h4 : isSellSig sig = true ∧ 0 < st.position
    · rw [if_pos h4] at htr
      by_cases h5 : 0 < st.position * sellRatio sig
      · rw [if_pos h5] at htr; simp at htr
      · rw [if_neg h5] at htr; simp at htr
    · rw [if_neg h4] at htr; simp at htr

/-- Counterexample to claim C2 as stated: with a slippage rate of `2`
(allowed by `slippage_rate ≥ 0`), positive closes, positive capital and
zero commission, the cash balance goes negative on the second bar. -/
theorem C2_cash_counterexample :
    (simRun 100000 0 2 [(Signal.strongBuy, 100), (Signal.strongSell, 100)]).map
        SimRow.cash = [0, -100000 / 3] ∧ ¬ (0 ≤ (-100000 / 3 : ℚ)) := by
  constructor
  · norm_num [simRun, simRunAux, simStep, simStepCore, buyTarget, sellRatio,
      isBuySig, isSellSig]
  · norm_num

/-- Claim C2, amended: under the additional (and necessary) bound
`slippage_rate ≤ 1`, cash stays nonnegative after every bar, and a buy is
executed only when `cost = buy_amount * (1 + commission) ≤ cash` at that
instant. -/
theorem C2_cash_invariant {cap comm slip : ℚ} {bars : List (Signal × ℚ)}
    (hcap : 0 < cap) (hcomm : 0 ≤ comm) (hslip : 0 ≤ slip) (hslip1 : slip ≤ 1)
    (hpos : ∀ b ∈ bars, 0 < b.2) :
    (∀ row ∈ simRun cap comm slip bars, 0 ≤ row.cash) ∧
      ∀ (close0 : ℚ) (st : SimState) (sig : Signal) (price : ℚ),
        (simStep cap comm slip close0 st sig price).2.trade = 1 →
        (buyTarget sig st.position - st.position) * st.cash * (1 + comm) ≤ st.cash := by
  refine ⟨?_, fun close0 st sig price htr => simStep_buy_gate htr⟩
  intro row hrow
  rcases bars with - | ⟨⟨sig0, p0⟩, rest⟩
  · simp [simRun] at hrow
  · rw [simRun] at hrow
    exact simRunAux_cash hcap hcomm hslip1 _ _ ⟨le_of_lt hcap, le_rfl, fun _ => rfl⟩
      hpos row hrow

/-- Spec §8's concrete simulator scenario, evaluated: a full buy then a
full sell at price 100 with no costs returns all capital. -/
theorem simRun_demo_eval :
    simRun 100000 0 0 [(Signal.strongBuy, 100), (Signal.strongSell, 100)] =
      [⟨1, 0, 100000, 100000, 1, 0⟩, ⟨0, 100000, 0, 100000, -1, 0⟩] := by
  norm_num [simRun, simRunAux, simStep, simStepCore, buyTarget, sellRatio,
    isBuySig, isSellSig]

/-- Witness for the amended C2 on the spec's concrete scenario. -/
theorem C2_cash_invariant_witness :
    0 ≤ ((⟨1, 0, 100000, 100000, 1, 0⟩ : SimRow)).cash ∧
      (buyTarget Signal.strongBuy (0 : ℚ) - 0) * 100000 * (1 + 0) ≤ (100000 : ℚ) := by
  have h := @C2_cash_invariant 100000 0 0
    [(Signal.strongBuy, 100), (Signal.strongSell, 100)]
    (by norm_num) le_rfl le_rfl (by norm_num)
    (by intro b hb; fin_cases hb <;> norm_num)
  constructor
  · apply h.1
    rw [simRun_demo_eval]
    exact List.mem_cons_self _ _
  · exact h.2 100 ⟨0, 100000, 0⟩ Signal.strongBuy 100
      (by norm_num [simStep, simStepCore, buyTarget, isBuySig])

theorem simRunAux_length {cap comm slip close0 : ℚ} :
    ∀ (st : SimState) (bars : List (Signal × ℚ)),
      (simRunAux cap comm slip close0 st bars).length = bars.length := by
  intro st bars
  induction bars generalizing st with
  | nil => rfl
  | cons b rest ih =>
    obtain ⟨sig, price⟩ := b
    rw [simRunAux]
    simp [ih]

theorem simRun_length {cap comm slip : ℚ} (bars : List (Signal × ℚ)) :
    (simRun cap comm slip bars).length = bars.length := by
  rcases bars with - | ⟨⟨sig, p⟩, rest⟩
  · rfl
  · rw [simRun]
    exact simRunAux_length _ _

/-- Claim C7: the simulator is total (one row per bar, no exceptional
exit), and a buy bar whose cost exceeds the available cash completes with
position, cash and entry price unchanged and no trade recorded — the order
is skipped entirely, never partially filled. -/
theorem C7_insufficient_cash_skip (cap comm slip close0 : ℚ) (st : SimState) (sig : Signal)
    (price : ℚ) (hbuy : sig = Signal.strongBuy ∨ sig = Signal.buy) (hplt : st.position < 1)
    (hcost : st.cash < (buyTarget sig st.position - st.position) * st.cash * (1 + comm)) :
    (simStep cap comm slip close0 st sig price).1 = st ∧
      (simStep cap comm slip close0 st sig price).2.trade = 0 ∧
      (simStep cap comm slip close0 st sig price).2.position = st.position ∧
      (simStep cap comm slip close0 st sig price).2.cash = st.cash ∧
      ∀ bars : List (Signal × ℚ), (simRun cap comm slip bars).length = bars.length := by
  have h1 : isBuySig sig = true ∧ st.position < 1 := by
    refine ⟨?_, hplt⟩
    rcases hbuy with rfl | rfl <;> rfl
  have hstep : simStepCore cap comm slip st sig price = (st, 0, 0) := by
    unfold simStepCore
    rw [if_pos h1]
    by_cases h2 : 0 < (buyTarget sig st.position - st.position) * st.cash
    · rw [if_pos h2, if_neg (not_le.mpr hcost)]
    · rw [if_neg h2]
  refine ⟨?_, ?_, ?_, ?_, fun bars => simRun_length bars⟩
  · show (simStepCore cap comm slip st sig price).1 = st
    rw [hstep]
  · show (simStepCore cap comm slip st sig price).2.1 = 0
    rw [hstep]
  · show (simStepCore cap comm slip st sig price).1.position = st.position
    rw [hstep]
  · show (simStepCore cap comm slip st sig price).1.cash = st.cash
    rw [hstep]

/-- Witness for C7: a buy with a 900% commission cannot afford the order
and leaves the state untouched. -/
theorem C7_insufficient_cash_skip_witness :
    (simStep 1000 9 0 50 ⟨0, 100, 0⟩ Signal.buy 50).1 = (⟨0, 100, 0⟩ : SimState) ∧
      (simStep 1000 9 0 50 ⟨0, 100, 0⟩ Signal.buy 50).2.trade = 0 ∧
      (simStep 1000 9 0 50 ⟨0, 100, 0⟩ Signal.buy 50).2.position = (0 : ℚ) ∧
      (simStep 1000 9 0 50 ⟨0, 100, 0⟩ Signal.buy 50).2.cash = (100 : ℚ) ∧
      (simRun 1000 9 0 [(Signal.buy, 50)]).length = 1 := by
  have h := C7_insufficient_cash_skip 1000 9 0 50 ⟨0, 100, 0⟩ Signal.buy 50
    (Or.inr rfl) (by norm_num) (by norm_num [buyTarget])
  exact ⟨h.1, h.2.1, h.2.2.1, h.2.2.2.1, h.2.2.2.2 [(Signal.buy, 50)]⟩

/-! ## Sortino ratio (metrics.calculate_sortino_ratio)

Daily returns are exact rationals; square roots live in `ℝ`; the result
type `Option (WithTop ℝ)` models the reachable `float` outcomes: `some ⊤`
is `float('inf')`, `some (x : ℝ)` a finite value, and `none` is the IEEE
`NaN` that `pandas.Series.std()` produces on fewer than two observations
and that then propagates through the final division. -/

/-- `pandas.Series.mean`: sum over length. -/
def lmean (l : List ℚ) : ℚ := l.sum / l.length

/-- The sample variance behind `pandas.Series.std` (`ddof = 1`): squared
deviations from the mean over `length - 1`; only consulted (by `lstdN`)
for lists of at least two elements, where the denominator is positive. -/
def lvarS (l : List ℚ) : ℚ :=
  ((l.map (fun x => (x - lmean l) ^ 2)).sum) / ((l.length : ℚ) - 1)

/-- `pandas.Series.std` (`ddof = 1`): `NaN` (here `none`) on a series of
fewer than two observations, else the square root of the sample variance. -/
noncomputable def lstdN (l : List ℚ) : Option ℝ :=
  if l.length ≤ 1 then none else some (Real.sqrt ((lvarS l : ℚ) : ℝ))

open Classical in
/-- `calculate_sortino_ratio`: `0` on an empty return series; `+∞` or `0`
(by the sign of the mean return) when there are no negative returns or
their standard deviation compares equal to zero — a `NaN` standard
deviation does not, since `NaN == 0` is false in floats — else the
annualised excess mean over the downside deviation, a `NaN` downside
deviation propagating to a `NaN` result. -/
noncomputable def sortino (riskFree : ℚ) (ppy : ℕ) (returns : List ℚ) : Option (WithTop ℝ) :=
  if returns.length = 0 then some ((0 : ℝ) : WithTop ℝ)
  else if (returns.filter (fun x => x < 0)).length = 0 ∨
      lstdN (returns.filter (fun x => x < 0)) = some 0 then
    (if 0 < lmean returns then some (⊤ : WithTop ℝ) else some ((0 : ℝ) : WithTop ℝ))
  else
    (lstdN (returns.filter (fun x => x < 0))).map (fun s =>
      ((Real.sqrt (ppy : ℝ) * ((lmean returns : ℝ) - (riskFree : ℝ) / (ppy : ℝ)) / s : ℝ) :
        WithTop ℝ))

theorem negs_eval :
    [-1 / 100, -1 / 100, 1 / 2].filter (fun x : ℚ => x < 0) = [-1 / 100, -1 / 100] := by
  norm_num [List.filter]

theorem lstdN_negs_eval :
    lstdN ([-1 / 100, -1 / 100, 1 / 2].filter (fun x : ℚ => x < 0)) = some 0 := by
  rw [negs_eval]
  unfold lstdN
  rw [if_neg (by norm_num)]
  have hvar : lvarS [-1 / 100, -1 / 100] = 0 := by norm_num [lvarS, lmean]
  rw [hvar]
  norm_num

/-- Counterexample to claim C8 as stated: on the return series
`[-0.01, -0.01, 0.5]` negative returns exist and their sample standard
deviation is exactly `0`; the code returns `+∞` while the claimed closed
formula, whose denominator is that zero downside deviation, cannot. -/
theorem C8_sortino_counterexample :
    sortino (1 / 50) 252 [-1 / 100, -1 / 100, 1 / 2] = some (⊤ : WithTop ℝ) ∧
      lstdN ([-1 / 100, -1 / 100, 1 / 2].filter (fun x : ℚ => x < 0)) = some 0 ∧
      sortino (1 / 50) 252 [-1 / 100, -1 / 100, 1 / 2] ≠
        some ((Real.sqrt ((252 : ℕ) : ℝ) *
            ((lmean [-1 / 100, -1 / 100, 1 / 2] : ℝ) -
              ((1 / 50 : ℚ) : ℝ) / ((252 : ℕ) : ℝ)) / (0 : ℝ) : ℝ) : WithTop ℝ) := by
  have hleft : sortino (1 / 50) 252 [-1 / 100, -1 / 100, 1 / 2] = some (⊤ : WithTop ℝ) := by
    unfold sortino
    rw [if_neg (by norm_num), if_pos (Or.inr lstdN_negs_eval), if_pos (by norm_num [lmean])]
  refine ⟨hleft, lstdN_negs_eval, ?_⟩
  rw [hleft, div_zero]
  simp

/-- Claim C8, amended: the Sortino ratio is `0` on an empty series; `+∞`
if the mean return is positive and `0` otherwise when the series is
nonempty and has no negative returns, or when the negative returns have a
sample standard deviation of exactly zero; `NaN` when there is exactly
one negative return, whose sample standard deviation is `NaN`; and
`sqrt(252) * (mean - rf/252) / std(negative returns)` whenever that
downside deviation is a nonzero number. -/
theorem C8_sortino_cases (riskFree : ℚ) (ppy : ℕ) (returns : List ℚ) :
    (returns = [] → sortino riskFree ppy returns = some ((0 : ℝ) : WithTop ℝ)) ∧
    (returns ≠ [] → returns.filter (fun x => x < 0) = [] →
      sortino riskFree ppy returns =
        (if 0 < lmean returns then some (⊤ : WithTop ℝ) else some ((0 : ℝ) : WithTop ℝ))) ∧
    (returns ≠ [] → lstdN (returns.filter (fun x => x < 0)) = some 0 →
      sortino riskFree ppy returns =
        (if 0 < lmean returns then some (⊤ : WithTop ℝ) else some ((0 : ℝ) : WithTop ℝ))) ∧
    (returns ≠ [] → (returns.filter (fun x => x < 0)).length = 1 →
      sortino riskFree ppy returns = none) ∧
    (∀ s : ℝ, returns ≠ [] → lstdN (returns.filter (fun x => x < 0)) = some s → s ≠ 0 →
      sortino riskFree ppy returns =
        some ((Real.sqrt (ppy : ℝ) * ((lmean returns : ℝ) - (riskFree : ℝ) / (ppy : ℝ)) /
          s : ℝ) : WithTop ℝ)) := by
  refine ⟨?_, ?_, ?_, ?_, ?_⟩
  · intro h
    unfold sortino
    rw [if_pos (by simp [h])]
  · intro hne hfe
    unfold sortino
    rw [if_neg (by simpa using hne), if_pos (Or.inl (by simp [hfe]))]
  · intro hne hstd
    unfold sortino
    rw [if_neg (by simpa using hne), if_pos (Or.inr hstd)]
  · intro hne hlen
    have hnan : lstdN (returns.filter (fun x => x < 0)) = none := by
      unfold lstdN
      rw [if_pos (by omega)]
    unfold sortino
    rw [if_neg (by simpa using hne),
      if_neg (by push_neg; exact ⟨by omega, by rw [hnan]; simp⟩), hnan]
    rfl
  · intro s hne hstd hs0
    have hlen0 : (returns.filter (fun x => x < 0)).length ≠ 0 := by
      intro h0
      rw [List.length_eq_zero.mp h0] at hstd
      simp [lstdN] at hstd
    unfold sortino
    rw [if_neg (by simpa using hne),
      if_neg (by push_neg; exact ⟨hlen0, by rw [hstd]; simpa using hs0⟩), hstd]
    rfl

/-- Witness for the amended C8: a single positive return yields `+∞`. -/
theorem C8_sortino_cases_witness :
    sortino (1 / 50) 252 [1 / 2] = some (⊤ : WithTop ℝ) := by
  have h := (C8_sortino_cases (1 / 50) 252 [1 / 2]).2.1 (by simp) (by norm_num [List.filter])
  rw [h, if_pos (by norm_num [lmean])]

end BuyStock
